import Mathlib

/-!
Shallow embedding of the MCP MongoDB host under `trial/`:
the tool base (tenant scoping, case-insensitive injection, allow-list gate),
the `find`/`count`/`aggregate` tools, the telemetry buffer and redaction,
and the chat orchestrator's empty-result retry loop.
-/

set_option autoImplicit false

namespace Mcp

/-- BSON-ish values as manipulated by the Python code: strings, ints,
ObjectIds (their 24-hex text), booleans, null, parsed datetimes
(kept as their source text), documents (insertion-ordered key/value
lists, mirroring Python dicts) and arrays. -/
inductive Val where
  | str (s : String)
  | int (n : Int)
  | oid (s : String)
  | bool (b : Bool)
  | null
  | date (s : String)
  | doc (fields : List (String × Val))
  | arr (elems : List Val)

/-- A document: a Python dict with string keys, insertion-ordered. -/
abbrev Doc := List (String × Val)

mutual

/-- Structural equality test on values (Python `==` on the embedded data). -/
def valBeq : Val → Val → Bool
  | .str a, .str b => a == b
  | .int a, .int b => a == b
  | .oid a, .oid b => a == b
  | .bool a, .bool b => a == b
  | .null, .null => true
  | .date a, .date b => a == b
  | .doc a, .doc b => fieldsBeq a b
  | .arr a, .arr b => listBeq a b
  | _, _ => false

def fieldsBeq : Doc → Doc → Bool
  | [], [] => true
  | (k, v) :: a, (k', v') :: b => k == k' && valBeq v v' && fieldsBeq a b
  | _, _ => false

def listBeq : List Val → List Val → Bool
  | [], [] => true
  | v :: a, v' :: b => valBeq v v' && listBeq a b
  | _, _ => false

end

/-- First-match association-list lookup: Python `dict[k]` / `dict.get(k)`. -/
def dget (d : Doc) (k : String) : Option Val :=
  match d with
  | [] => none
  | (k', v) :: rest => if k' = k then some v else dget rest k

/-- Python `dict[k] = v`: replace in place if the key exists, else append. -/
def dset (d : Doc) (k : String) (v : Val) : Doc :=
  if d.any (fun p => p.1 = k) then
    d.map (fun p => if p.1 = k then (p.1, v) else p)
  else d ++ [(k, v)]

/-- Python `base.update(extra)`: fold `dset` over the extra entries. -/
def dupdate (base extra : Doc) : Doc :=
  extra.foldl (fun d p => dset d p.1 p.2) base

/-- The keys of a document, in order. -/
def dkeys (d : Doc) : List String := d.map Prod.fst

/-! ## Python library models: `re.escape`, `bson.ObjectId` -/

/-- The characters Python `re.escape` (3.7+) prefixes with a backslash:
`() [] \x7b \x7d ? * + - | ^ $ \ . & ~ #` and ASCII whitespace. -/
def isPySpecial (c : Char) : Bool :=
  c ∈ ['(', ')', '[', ']', '\x7b', '\x7d', '?', '*', '+', '-', '|', '^',
       '$', '\\', '.', '&', '~', '#', ' ', '\t', '\n', '\r', '\x0b', '\x0c']

/-- One character of `re.escape` output. -/
def escChar (c : Char) : List Char :=
  if isPySpecial c then ['\\', c] else [c]

/-- Model of Python `re.escape` on the character list of a string. -/
def pyReEscape (cs : List Char) : List Char :=
  cs.flatMap escChar

/-- Hex digit test, both cases (as accepted by `bson.ObjectId`). -/
def isHexChar (c : Char) : Bool :=
  c.isDigit || ('a' ≤ c && c ≤ 'f') || ('A' ≤ c && c ≤ 'F')

/-- Python `s.startswith(pre)`, as a character-list prefix test. -/
def pyStartsWith (s pre : String) : Bool :=
  pre.toList.isPrefixOf s.toList

/-- Python regex `\s` on ASCII (also used by `str.strip`). -/
def isPyWs (c : Char) : Bool :=
  c ∈ [' ', '\t', '\n', '\r', '\x0b', '\x0c']

/-- Python `s.strip()` (ASCII whitespace; the keys in scope are ASCII). -/
def pyStrip (s : String) : String :=
  String.mk (((s.toList.dropWhile isPyWs).reverse.dropWhile isPyWs).reverse)

/-- Python `s.lower()` on ASCII letters. -/
def pyLower (s : String) : String :=
  String.mk (s.toList.map Char.toLower)

/-- Model of `bson.ObjectId(s)` succeeding on a string: a 24-hex string. -/
def isValidObjectId (s : String) : Bool :=
  s.length == 24 && s.toList.all isHexChar

/-! ## `tools/tool_base.py` — `_inject_case_insensitive` -/

/-- The `{$regex: <escape(v)>, $options: "i"}` wrapper that
`_inject_case_insensitive` substitutes for a bare string `v`. -/
def ciRegexWrap (s : String) : Val :=
  .doc [("$regex", .str (String.mk (pyReEscape s.toList))), ("$options", .str "i")]

/-- Python `isinstance(v, (dict, list))`. -/
def isContainer : Val → Bool
  | .doc _ => true
  | .arr _ => true
  | _ => false

mutual

/-- `tools/tool_base.py::_inject_case_insensitive`.  Dict entries whose key
starts with `$` and whose value is a dict or a list are copied verbatim
(no recursion); every other entry recurses; bare strings become
case-insensitive regex wrappers; other scalars are unchanged. -/
def injectCI : Val → Val
  | .doc kvs => .doc (injectCIFields kvs)
  | .arr xs => .arr (injectCIList xs)
  | .str s => ciRegexWrap s
  | v => v

def injectCIFields : Doc → Doc
  | [] => []
  | (k, v) :: rest =>
    (if pyStartsWith k "$" && isContainer v
     then (k, v) else (k, injectCI v)) :: injectCIFields rest

def injectCIList : List Val → List Val
  | [] => []
  | v :: rest => injectCI v :: injectCIList rest

end

/-! ## `tools/find.py` — `_unwrap_ci_regex` -/

/-- `re.fullmatch(r"^\^(.*)\$$", p)`: `p` is `^` + body + `$` where the
body contains no newline (`.` does not match `\n`); returns the body. -/
def anchoredBody (p : String) : Option String :=
  match p.toList with
  | c :: rest =>
    if c == '^' && rest.getLast? == some '$' &&
       rest.dropLast.all (fun x => x != '\n')
    then some (String.mk rest.dropLast) else none
  | [] => none

/-- Python `set(obj) == {"$regex", "$options"}` on the key list. -/
def regexOptionsKeysOnly (ks : List String) : Bool :=
  ks.contains "$regex" && ks.contains "$options" &&
    ks.all (fun k => k == "$regex" || k == "$options")

/-- Python `obj["$options"] == "i"` (false when absent or non-string). -/
def optionsIsI (kvs : Doc) : Bool :=
  match dget kvs "$options" with
  | some (.str o) => o == "i"
  | _ => false

mutual

/-- `tools/find.py::_unwrap_ci_regex`.  A dict whose key set is exactly
`{$regex, $options}` with `$options == "i"` and an anchored literal
pattern collapses to the bare literal; otherwise values are recursed.
A non-string `$regex` in such a dict raises `TypeError` in Python
(`re.fullmatch` rejects it); that is the `.error` case. -/
def unwrapCI : Val → Except Unit Val
  | .arr xs =>
    match unwrapCIList xs with
    | .ok ys => .ok (.arr ys)
    | .error e => .error e
  | .doc kvs =>
    if regexOptionsKeysOnly (dkeys kvs) && optionsIsI kvs then
      match dget kvs "$regex" with
      | some (.str p) =>
        match anchoredBody p with
        | some lit => .ok (.str lit)
        | none =>
          match unwrapCIFields kvs with
          | .ok g => .ok (.doc g)
          | .error e => .error e
      | _ => .error ()
    else
      match unwrapCIFields kvs with
      | .ok g => .ok (.doc g)
      | .error e => .error e
  | v => .ok v

def unwrapCIFields : Doc → Except Unit Doc
  | [] => .ok []
  | (k, v) :: rest =>
    match unwrapCI v, unwrapCIFields rest with
    | .ok w, .ok g => .ok ((k, w) :: g)
    | .error e, _ => .error e
    | _, .error e => .error e

def unwrapCIList : List Val → Except Unit (List Val)
  | [] => .ok []
  | v :: rest =>
    match unwrapCI v, unwrapCIList rest with
    | .ok w, .ok ys => .ok (w :: ys)
    | .error e, _ => .error e
    | _, .error e => .error e

end

/-! ## `utils/company_id.py` — `make_company_filter` -/

/-- A FastAPI `HTTPException` or `ToolException` surfaced to the caller. -/
structure HttpErr where
  status : Nat
  detail : String
  deriving Repr, DecidableEq

/-- `utils/company_id.py::make_company_filter`.  Builds
`{company: ObjectId(company_id)}` (or `{_id: …}` for the `companies`
collection) and then `base.update(extra_filter)` — the caller's keys
take precedence.  An invalid `company_id` raises HTTP 400. -/
def make_company_filter (collection_name company_id : String)
    (extra_filter : Option Doc) : Except HttpErr Doc :=
  if !isValidObjectId company_id then
    .error ⟨400, "Invalid company_id"⟩
  else
    let base : Doc :=
      if collection_name == "companies" then [("_id", .oid company_id)]
      else [("company", .oid company_id)]
    match extra_filter with
    | some e => .ok (if e.isEmpty then base else dupdate base e)
    | none => .ok base

/-! ## `tools/tool_base.py` — `ToolBase.run` scoping branches -/

/-- The filter branch of `ToolBase.run`: non-tenant collections get the
caller filter injected untouched; others get the tenant-merged filter,
then the case-insensitive injection. -/
def scopedFilter (nonTenant : List String) (coll tid : String)
    (filterArg : Option Doc) : Except HttpErr Doc :=
  let extra := filterArg.getD []
  if coll ∈ nonTenant then
    .ok (if extra.isEmpty then [] else injectCIFields extra)
  else
    match make_company_filter coll tid (some extra) with
    | .ok f => .ok (injectCIFields f)
    | .error e => .error e

/-- Python `needle in hay` on strings, as a character-list scan. -/
def listInfixOf (needle : List Char) : List Char → Bool
  | [] => needle.isEmpty
  | c :: t => needle.isPrefixOf (c :: t) || listInfixOf needle t

/-- `isinstance(first, dict) and "$match" in first and any(key in
first["$match"] for key in tenant_match)`.  (A non-dict, non-list,
non-string `$match` value would raise `TypeError` in Python; stages in
scope are always documents, so that corner is modelled as `false`.) -/
def stageHasTenantKey (first : Val) (tm : Doc) : Bool :=
  match first with
  | .doc f =>
    match dget f "$match" with
    | some (.doc m) => (dkeys tm).any (fun k => (dkeys m).contains k)
    | some (.arr xs) => (dkeys tm).any (fun k => xs.any (valBeq (.str k)))
    | some (.str s) => (dkeys tm).any (fun k => listInfixOf k.toList s.toList)
    | _ => false
  | _ => false

/-- The pipeline branch of `ToolBase.run`: for tenant-scoped collections,
prepend `{$match: tenant_match}` unless the first stage is already a
`$match` carrying a tenant key.  Runs on `validated.pipeline or []`, so
an absent pipeline becomes a one-stage pipeline here. -/
def scopedPipeline (nonTenant : List String) (coll tid : String)
    (pipelineArg : Option (List Val)) : Except HttpErr (List Val) :=
  let pl := pipelineArg.getD []
  if coll ∈ nonTenant then .ok pl
  else
    match make_company_filter coll tid none with
    | .error e => .error e
    | .ok tm =>
      if stageHasTenantKey (pl.headD (.doc [])) tm then .ok pl
      else .ok (.doc [("$match", .doc tm)] :: pl)

/-! ## `tools/list_collections.py` and the allow-list gate -/

/-- `tools/list_collections.py::STATIC_COLLECTIONS`. -/
def STATIC_COLLECTIONS : List String :=
  ["companies", "plans", "brokers", "broker-payments", "contracts",
   "contractors", "contractor-payments", "general-expenses", "lands",
   "projects", "properties", "property-bookings", "property-payments",
   "rent-payments", "tenants", "leads", "lead-assignments",
   "lead-rotations", "lead-visited-properties", "lead-notes",
   "amenities", "cold-leads", "lead-visited-properties"]

/-- `ListCollectionsTool.execute`: returns `{result: STATIC_COLLECTIONS}`. -/
def list_collections_result : Doc :=
  [("result", .arr (STATIC_COLLECTIONS.map .str))]

/-- `", ".join` over the string values of a list. -/
def joinNames (xs : List Val) : String :=
  String.intercalate ", " (xs.map (fun v => match v with | .str s => s | _ => ""))

/-- The allow-list branch of `ToolBase.run`: when a non-empty allow-list
is configured and the collection is not in it, the raised message is
built from `lc_tool.run({}).get("collections", [])` — but
`list_collections` keys its result as `"result"`, so the whitelist read
here is always empty. -/
def allowListGate (allowed : Option (List String)) (coll : Option String) :
    Except HttpErr Unit :=
  match coll, allowed with
  | some c, some al =>
    if c ≠ "" ∧ al ≠ [] then
      if c ∈ al then .ok ()
      else
        let whitelist : List Val :=
          match dget list_collections_result "collections" with
          | some (.arr xs) => xs
          | _ => []
        if whitelist.isEmpty then
          .error ⟨400, "No collections are currently allowed. " ++
            "Check your `allowed_collections` configuration."⟩
        else
          .error ⟨400, "Collection '" ++ c ++ "' not in allowed list. " ++
            "Allowed collections: " ++ joinNames whitelist⟩
    else .ok ()
  | _, _ => .ok ()

/-! ## `tools/aggregate.py` -/

/-- `aggregate.py::normalize_field_name`, parametrized by the field-name
table.  Modelled from the spec: the `SCHEMAS` registry itself
(`src/db_schema.py`, "a pre-built static schema registry") is not among
the provided sources, so the table is a parameter mapping a collection
to its field names; the lookup logic below is from the source. -/
def normalize_field_name (schemas : List (String × List String))
    (input_name collection : String) : String :=
  let fields := (schemas.lookup collection).getD []
  let key := String.mk ((pyLower input_name).toList.filter (fun c => c != '_'))
  match fields.find? (fun f => pyLower f == key) with
  | some f => f
  | none => input_name

/-- Modelled from the library: `dateutil.parser.isoparse` succeeding,
simplified to a `YYYY-MM-DD` prefix (none of the theorems below depend
on which strings parse, only that non-strings never do). -/
def isoDateLike (cs : List Char) : Bool :=
  match cs with
  | y1 :: y2 :: y3 :: y4 :: '-' :: m1 :: m2 :: '-' :: d1 :: d2 :: rest =>
    (rest.isEmpty || rest.headD ' ' == 'T') &&
      [y1, y2, y3, y4, m1, m2, d1, d2].all Char.isDigit
  | _ => false

mutual

/-- `aggregate.py::_convert_iso_dates`: parse ISO-8601 strings in place. -/
def convertIso : Val → Val
  | .doc kvs => .doc (convertIsoFields kvs)
  | .arr xs => .arr (convertIsoList xs)
  | .str s => if isoDateLike s.toList then .date s else .str s
  | v => v

def convertIsoFields : Doc → Doc
  | [] => []
  | (k, v) :: rest => (k, convertIso v) :: convertIsoFields rest

def convertIsoList : List Val → List Val
  | [] => []
  | v :: rest => convertIso v :: convertIsoList rest

end

/-- Materialize a key/value sequence as a Python dict: repeated
assignment, so a later duplicate key overwrites the value but keeps the
first occurrence's position. -/
def dictOf (l : Doc) : Doc :=
  l.foldl (fun acc p => dset acc p.1 p.2) []

mutual

/-- `aggregate.py::_sanitize_pipeline_keys::clean`: strip whitespace from
every dict key, recursing into sub-documents and arrays.  The Python
dict comprehension `\x7bk.strip(): clean(v) …\x7d` can merge two keys that
strip to the same text (last value wins), hence the `dictOf`. -/
def cleanKeys : Val → Val
  | .doc kvs => .doc (dictOf (cleanKeysFields kvs))
  | .arr xs => .arr (cleanKeysList xs)
  | v => v

def cleanKeysFields : Doc → Doc
  | [] => []
  | (k, v) :: rest => (pyStrip k, cleanKeys v) :: cleanKeysFields rest

def cleanKeysList : List Val → List Val
  | [] => []
  | v :: rest => cleanKeys v :: cleanKeysList rest

end

/-- `aggregate.py::_sanitize_pipeline_keys`. -/
def sanitizePipelineKeys (pl : List Val) : List Val :=
  pl.map cleanKeys

/-- `aggregate.py::AggregateArgs`.  `groupBy` is `Union[str, List[str]]`
in the source; a bare string `g` behaves exactly like `[g]` (the first
line of each groupBy mode wraps it), so it is embedded as the list. -/
structure AggArgs where
  collection : String
  pipeline : Option (List Val) := none
  groupBy : Option (List String) := none
  statField : Option String := none
  statOp : Option String := none
  filter : Option Doc := none
  sortBy : Option String := none
  sortDir : String := "desc"
  limit : Option Nat := some 100

/-- Python truthiness of an optional string. -/
def optStrTruthy (o : Option String) : Bool := o.getD "" ≠ ""

/-- Python truthiness of an optional list. -/
def optListTruthy {α : Type} (o : Option (List α)) : Bool := !(o.getD []).isEmpty

/-- Python truthiness of the optional `limit`. -/
def optNatTruthy (o : Option Nat) : Bool := o.getD 0 ≠ 0

/-- `AggregateArgs.require_one_logic`: at least one of `pipeline`,
`groupBy`, `statField` must be truthy. -/
def aggArgsValid (a : AggArgs) : Bool :=
  optListTruthy a.pipeline || optListTruthy a.groupBy || optStrTruthy a.statField

/-- The config fields consulted on the aggregate path. -/
structure AggConfig where
  nonTenant : List String
  allowed : Option (List String) := none
  schemas : List (String × List String) := []

/-- The `$group`/`$project` pair of the groupBy+statField+statOp mode. -/
def statGroupStages (schemas : List (String × List String)) (coll : String)
    (gf0 : List String) (sf0 op : String) : List Val :=
  let gf := gf0.map (fun f => normalize_field_name schemas f coll)
  let sf := normalize_field_name schemas sf0 coll
  let groupKey : Val :=
    if gf.length == 1 then .str (gf.headD "")
    else .doc (gf.map (fun f => (f, Val.str ("$" ++ f))))
  let proj : Doc :=
    [("_id", .int 0), ("stat", .int 1)] ++
    (if gf.length == 1 then [("group", Val.str "$_id")]
     else gf.map (fun f => (f, Val.str ("$_id." ++ f))))
  [.doc [("$group", .doc [("_id", groupKey), ("stat", .doc [("$" ++ op, .str ("$" ++ sf))])])],
   .doc [("$project", .doc proj)]]

/-- The `$facet` stage of the legacy groupBy-only mode. -/
def facetStage (schemas : List (String × List String)) (coll : String)
    (gf0 : List String) : Val :=
  let nf := gf0.map (fun f => normalize_field_name schemas f coll)
  let gid : Val :=
    if nf.length == 1 then .str (nf.headD "")
    else .doc (nf.map (fun f => (f, Val.str ("$" ++ f))))
  let groupStage : Val :=
    .doc [("$group", .doc [("_id", gid), ("count", .doc [("$sum", .int 1)])])]
  let projectStage : Val :=
    .doc [("$project", .doc
      ((if nf.length == 1 then [("field", Val.str "$_id")]
        else nf.map (fun f => (f, Val.str ("$_id." ++ f)))) ++
       [("count", .int 1), ("_id", .int 0)]))]
  .doc [("$facet", .doc
    [("total", .arr [.doc [("$count", .str "total")]]),
     ("byGroup", .arr [groupStage, projectStage])])]

/-- `statOp.lower() ∈ {avg, sum, min, max}`. -/
def validStatOp (op : String) : Bool :=
  op ∈ ["avg", "sum", "min", "max"]

/-- The mode-selection chain of `AggregateTool.execute` (steps 2–6),
operating on the pipeline argument *after* `ToolBase.run` has rewritten
it.  Returns the stages to append after the initial `$match`. -/
def aggModeStages (cfg : AggConfig) (a : AggArgs) (runPipeline : List Val) :
    Except HttpErr (List Val) :=
  if !runPipeline.isEmpty then
    .ok (sanitizePipelineKeys runPipeline)
  else if optListTruthy a.groupBy && optStrTruthy a.statField &&
          optStrTruthy a.statOp then
    let op := pyLower (a.statOp.getD "")
    if !validStatOp op then
      .error ⟨400, "Unsupported statOp '" ++ a.statOp.getD "" ++ "'"⟩
    else
      .ok (statGroupStages cfg.schemas a.collection (a.groupBy.getD [])
            (a.statField.getD "") op)
  else if optStrTruthy a.statField && optStrTruthy a.statOp then
    let op := pyLower (a.statOp.getD "")
    if !validStatOp op then
      .error ⟨400, "Unsupported statOp '" ++ a.statOp.getD "" ++ "'"⟩
    else
      let sf := normalize_field_name cfg.schemas (a.statField.getD "") a.collection
      .ok [.doc [("$group", .doc [("_id", .null), ("result", .doc [("$" ++ op, .str ("$" ++ sf))])])],
           .doc [("$project", .doc [("_id", .int 0), ("result", .int 1)])]]
  else if optListTruthy a.groupBy then
    .ok [facetStage cfg.schemas a.collection (a.groupBy.getD [])]
  else
    .ok [.doc [("$count", .str "count")]]

/-- `any("$facet" in stage for stage in pipeline)`. -/
def pipelineHasFacet (pl : List Val) : Bool :=
  pl.any (fun st => match st with
    | .doc f => (dkeys f).contains "$facet"
    | _ => false)

/-- The `$sort`/`$limit` stages appended by steps 7 of
`AggregateTool.execute` (skipped when the pipeline holds a `$facet`). -/
def aggSortLimit (cfg : AggConfig) (a : AggArgs) (isFacet : Bool) : List Val :=
  (if optStrTruthy a.sortBy && !isFacet then
    [.doc [("$sort", .doc
      [(normalize_field_name cfg.schemas (a.sortBy.getD "") a.collection,
        .int (if pyLower a.sortDir == "desc" then -1 else 1))])]]
   else []) ++
  (if optNatTruthy a.limit && !isFacet then
    [.doc [("$limit", .int (a.limit.getD 0))]]
   else [])

/-- The pipeline executed by one `aggregate` tool call: the composition
of `ToolBase.run` (argument validation, filter and pipeline tenant
scoping, allow-list gate) with `AggregateTool.execute` (initial `$match`
construction, mode selection, `$sort`/`$limit`, key sanitization). -/
def aggExecutedPipeline (cfg : AggConfig) (tid : String) (a : AggArgs) :
    Except HttpErr (List Val) :=
  if !aggArgsValid a then
    .error ⟨400, "Invalid arguments: require one of pipeline, groupBy, statField"⟩
  else
    match scopedFilter cfg.nonTenant a.collection tid a.filter with
    | .error e => .error e
    | .ok filt =>
      match scopedPipeline cfg.nonTenant a.collection tid a.pipeline with
      | .error e => .error e
      | .ok runPl =>
        match allowListGate cfg.allowed (some a.collection) with
        | .error e => .error e
        | .ok _ =>
          match aggModeStages cfg a runPl with
          | .error e => .error e
          | .ok tailStages =>
            let baseFilter := dset filt "company" (.oid tid)
            let matchStage : Val :=
              .doc [("$match", .doc (injectCIFields (convertIsoFields baseFilter)))]
            let isFacet := pipelineHasFacet (matchStage :: tailStages)
            .ok (sanitizePipelineKeys
              (matchStage :: (tailStages ++ aggSortLimit cfg a isFacet)))

/-! ## `src/telemetry.py` — redaction -/

/-- `telemetry.py::_SENSITIVE_KEYS`. -/
def SENSITIVE_KEYS : List String :=
  ["password", "pwd", "secret", "apiKey", "accessToken",
   "authorization", "clientSecret", "privateKey"]

/-- Case-insensitive literal match of `key` against a prefix of `cs`;
returns the consumed original characters and the remainder. -/
def matchCi : List Char → List Char → Option (List Char × List Char)
  | [], cs => some ([], cs)
  | _ :: _, [] => none
  | k :: ks, c :: cs =>
    if k.toLower == c.toLower then
      (matchCi ks cs).map (fun p => (c :: p.1, p.2))
    else none

/-- Try each sensitive key in order (they are mutually prefix-free, so
regex alternation order cannot change the outcome). -/
def matchAnyKey (cs : List Char) : Option (List Char × List Char) :=
  SENSITIVE_KEYS.firstM (fun k => matchCi k.toList cs)

/-- One attempted match of the redaction regex
`("(?:password|…)"\s*:\s*)"([^"]+)"` (IGNORECASE) at the head of `cs`:
on success, the replacement text (group 1 verbatim + `"<REDACTED>"`)
and the remainder after the match. -/
def tryRedactAt (cs : List Char) : Option (List Char × List Char) :=
  match cs with
  | '"' :: cs1 =>
    match matchAnyKey cs1 with
    | some (korig, cs2) =>
      match cs2 with
      | '"' :: cs3 =>
        let ws1 := cs3.takeWhile isPyWs
        match cs3.dropWhile isPyWs with
        | ':' :: cs5 =>
          let ws2 := cs5.takeWhile isPyWs
          match cs5.dropWhile isPyWs with
          | '"' :: cs7 =>
            let v := cs7.takeWhile (fun c => c != '"')
            match v, cs7.dropWhile (fun c => c != '"') with
            | _ :: _, '"' :: cs9 =>
              some ('"' :: korig ++ '"' :: ws1 ++ ':' :: ws2 ++
                    '"' :: "<REDACTED>".toList ++ ['"'], cs9)
            | _, _ => none
          | _ => none
        | _ => none
      | _ => none
    | none => none
  | _ => none

/-- Left-to-right non-overlapping substitution, as `re.sub` performs it;
`fuel` bounds the scan (every match consumes at least one character, so
`length + 1` is always enough). -/
def redactScan : Nat → List Char → List Char
  | 0, cs => cs
  | _ + 1, [] => []
  | fuel + 1, c :: cs =>
    match tryRedactAt (c :: cs) with
    | some (rep, rest) => rep ++ redactScan fuel rest
    | none => c :: redactScan fuel cs

/-- `_RE.sub(r'\1"<REDACTED>"', v)` on one string value. -/
def pyRedactSub (s : String) : String :=
  String.mk (redactScan (s.toList.length + 1) s.toList)

mutual

/-- `telemetry.py::_redact_dict::redact_val`: the regex substitution on
string values; recursion through dicts (values only — keys are never
inspected) and lists; other scalars unchanged. -/
def redact_val : Val → Val
  | .str s => .str (pyRedactSub s)
  | .doc kvs => .doc (redactFields kvs)
  | .arr xs => .arr (redactList xs)
  | v => v

def redactFields : Doc → Doc
  | [] => []
  | (k, v) :: rest => (k, redact_val v) :: redactFields rest

def redactList : List Val → List Val
  | [] => []
  | v :: rest => redact_val v :: redactList rest

end

/-- `telemetry.py::_redact_dict`. -/
def redact_dict (d : Doc) : Doc := redactFields d

/-! ## `src/telemetry.py` — the bounded buffer -/

/-- The telemetry cache: indexed events plus the next insertion index
(`Telemetry._cache` and `Telemetry._next_idx`). -/
structure TelBuf (α : Type) where
  buf : List (Nat × α)
  nextIdx : Nat

/-- `oldest = min(self._cache.keys()); self._cache.pop(oldest, None)`. -/
def popMinIdx {α : Type} (l : List (Nat × α)) : List (Nat × α) :=
  match (l.map Prod.fst).min? with
  | none => l
  | some m => l.eraseP (fun p => p.1 == m)

/-- The buffering tail of `Telemetry.record`: evict the smallest index
when full, then insert the event at `_next_idx` and bump the counter. -/
def telRecord {α : Type} (cap : Nat) (s : TelBuf α) (e : α) : TelBuf α :=
  let b := if cap ≤ s.buf.length then popMinIdx s.buf else s.buf
  ⟨b ++ [(s.nextIdx, e)], s.nextIdx + 1⟩

/-- A sequence of `record` calls starting from the fresh telemetry state. -/
def telRun {α : Type} (cap : Nat) (evs : List α) : TelBuf α :=
  evs.foldl (telRecord cap) ⟨[], 0⟩

/-! ## `utils/app_utils.py` -/

/-- Python truthiness of `result.get(k)`. -/
def truthyVal : Option Val → Bool
  | none => false
  | some (.str s) => s ≠ ""
  | some (.int n) => n ≠ 0
  | some (.bool b) => b
  | some .null => false
  | some (.date _) => true
  | some (.oid _) => true
  | some (.doc d) => !d.isEmpty
  | some (.arr l) => !l.isEmpty

/-- Python `result.get(k, 0) == 0` (note `False == 0` holds in Python). -/
def pyGetEqZero : Option Val → Bool
  | none => true
  | some (.int n) => n == 0
  | some (.bool b) => !b
  | _ => false

/-- `app_utils.py::result_is_empty`. -/
def result_is_empty (tool : String) (result : Doc) : Bool :=
  if tool == "count" then pyGetEqZero (dget result "result")
  else if tool == "find" then pyGetEqZero (dget result "total_documents")
  else if tool == "aggregate" then !truthyVal (dget result "result")
  else if tool == "search" then !truthyVal (dget result "results")
  else false

/-- How one `rpc_server.call_tool` invocation can end. -/
inductive RpcOutcome where
  | ok (result : Doc)
  | toolErr (msg : String)
  | otherErr

/-- The status mapping of `app_utils.py::call_tool`: setting
`session.current_company_id` raises `ValueError` on an invalid
ObjectId, and the blanket `except` there re-raises as HTTP **500**;
a `ToolException` from the tool becomes HTTP 400 with `str(te)`
verbatim; any other exception becomes HTTP 500.  (The `find` `_id`
string-to-ObjectId coercion and the logging calls cannot change the
surfaced status.) -/
def call_tool_status (company_id : String) (rpc : RpcOutcome) :
    Except HttpErr Doc :=
  if !isValidObjectId company_id then .error ⟨500, "Internal server error"⟩
  else match rpc with
    | .ok r => .ok r
    | .toolErr m => .error ⟨400, m⟩
    | .otherErr => .error ⟨500, "Internal server error"⟩

/-! ## `app.py::_run_chat` — the empty-result retry loop -/

/-- One LLM reply inside the tool-calling loop, abstracted to what the
control flow inspects: a non-search function call whose tool result has
the given emptiness flag, or a plain content message. -/
inductive ChatEv where
  | toolCall (empty : Bool)
  | content

/-- The loop variables of `_run_chat` that the claims observe: `found`,
`retries`, and whether the canned `"No data found—please refine your
question."` assistant message has been appended. -/
structure LoopSt where
  found : Bool
  retries : Nat
  canned : Bool
  deriving Repr, DecidableEq

/-- One iteration of the `while True:` loop in `_run_chat` (for a tool
call: `found |= not empty`, then the retry bookkeeping; for content
with no data and retries left: a nudge and another round; otherwise the
loop returns, modelled as an absorbing state). -/
def chatStep (s : LoopSt) (e : ChatEv) : LoopSt :=
  match e with
  | .toolCall empty =>
    let found := s.found || !empty
    if !found && s.retries ≠ 0 then ⟨found, s.retries - 1, s.canned⟩
    else if !found then ⟨true, s.retries, true⟩
    else ⟨found, s.retries, s.canned⟩
  | .content =>
    if !s.found && s.retries ≠ 0 then ⟨s.found, s.retries - 1, s.canned⟩
    else s

/-- A user turn: the loop starts with `found = False`, `retries = 2`. -/
def chatRun (evs : List ChatEv) : LoopSt :=
  evs.foldl chatStep ⟨false, 2, false⟩

/-! ## MongoDB filter matching (spec-modelled) -/

/-- A value in operator position: a non-empty dict all of whose keys
start with `$`. -/
def isOpDoc : Val → Bool
  | .doc kvs => !kvs.isEmpty && (dkeys kvs).all (fun k => pyStartsWith k "$")
  | _ => false

/-- Modelled from the spec: MongoDB's filter semantics (the database
server is external to the repository; the spec states "every returned
document `d` satisfies `d.company == tenantId`").  A filter is a
conjunction over its keys; a plain condition value matches by equality;
an operator document is over-approximated as matching **every**
document, so any theorem of the form `mongoMatches d f = true → P d`
also covers the real, more selective operator semantics. -/
def matchesField (v : Option Val) (cond : Val) : Bool :=
  if isOpDoc cond then true
  else match v with
    | some w => valBeq w cond
    | none => false

/-- Conjunction of per-key matches: the modelled `coll.find(filter)` /
`coll.count_documents(filter)` membership test. -/
def mongoMatches (d : Doc) (filt : Doc) : Bool :=
  filt.all (fun p => matchesField (dget d p.1) p.2)

/-! ## Helper lemmas on the dict model -/

theorem valBeq_oid (w : Val) (t : String) (h : valBeq w (.oid t) = true) :
    w = .oid t := by
  cases w <;> simp [valBeq] at h ⊢
  exact h

theorem dget_append (d e : Doc) (k : String) :
    dget (d ++ e) k = ((dget d k).rec (dget e k) (fun v => some v)) := by
  induction d with
  | nil => simp [dget]
  | cons p rest ih =>
    obtain ⟨k', v'⟩ := p
    by_cases h : k' = k <;> simp [dget, h, ih]

theorem dget_none_of_any_false (d : Doc) (k : String)
    (h : d.any (fun p => p.1 = k) = false) : dget d k = none := by
  induction d with
  | nil => rfl
  | cons p rest ih =>
    simp only [List.any_cons, Bool.or_eq_false_iff, decide_eq_false_iff_not] at h
    simp [dget, h.1, ih h.2]

theorem dget_map_set_self (d : Doc) (k : String) (v : Val) :
    dget (d.map (fun p => if p.1 = k then (p.1, v) else p)) k =
      (dget d k).map (fun _ => v) := by
  induction d with
  | nil => simp [dget]
  | cons p rest ih =>
    obtain ⟨k0, v0⟩ := p
    by_cases hk : k0 = k
    · subst hk
      simp only [List.map_cons, if_pos rfl]
      simp [dget, ih]
    · simp only [List.map_cons, if_neg hk]
      simp [dget, hk, ih]

theorem dget_map_set_ne (d : Doc) (k k' : String) (v : Val) (h : k' ≠ k) :
    dget (d.map (fun p => if p.1 = k then (p.1, v) else p)) k' = dget d k' := by
  induction d with
  | nil => simp [dget]
  | cons p rest ih =>
    obtain ⟨k0, v0⟩ := p
    by_cases hk : k0 = k
    · subst hk
      have hne : ¬(k0 = k') := fun hc => h hc.symm
      simp only [List.map_cons, if_pos rfl]
      simp [dget, hne, ih]
    · simp only [List.map_cons, if_neg hk]
      by_cases hk' : k0 = k'
      · subst hk'; simp [dget, ih]
      · simp [dget, hk', ih]

theorem dget_isSome_of_any (d : Doc) (k : String)
    (h : d.any (fun p => p.1 = k) = true) : (dget d k).isSome := by
  induction d with
  | nil => simp at h
  | cons p rest ih =>
    obtain ⟨k0, v0⟩ := p
    by_cases hk : k0 = k
    · simp [dget, hk]
    · simp only [List.any_cons, decide_eq_true_eq, hk, false_or,
        Bool.false_or] at h
      simpa [dget, hk] using ih h

theorem dget_dset_self (d : Doc) (k : String) (v : Val) :
    dget (dset d k v) k = some v := by
  unfold dset
  by_cases h : d.any (fun p => p.1 = k) = true
  · rw [if_pos h, dget_map_set_self]
    obtain ⟨w, hw⟩ := Option.isSome_iff_exists.mp (dget_isSome_of_any d k h)
    simp [hw]
  · rw [if_neg h, dget_append]
    have hnone : dget d k = none :=
      dget_none_of_any_false d k (Bool.eq_false_iff.mpr h)
    simp [hnone, dget]

theorem dget_dset_ne (d : Doc) (k k' : String) (v : Val) (h : k' ≠ k) :
    dget (dset d k v) k' = dget d k' := by
  unfold dset
  by_cases ha : d.any (fun p => p.1 = k) = true
  · rw [if_pos ha, dget_map_set_ne _ _ _ _ h]
  · rw [if_neg ha, dget_append]
    cases hd : dget d k' with
    | some w => simp
    | none =>
      have hne : ¬(k = k') := fun hc => h hc.symm
      simp [dget, hne]

theorem dget_some_mem {d : Doc} {k : String} {v : Val}
    (h : dget d k = some v) : (k, v) ∈ d := by
  induction d with
  | nil => simp [dget] at h
  | cons p rest ih =>
    obtain ⟨k0, v0⟩ := p
    by_cases hk : k0 = k
    · subst hk
      simp only [dget, eq_self_iff_true, if_true, Option.some.injEq] at h
      subst h; exact List.mem_cons_self _ _
    · simp only [dget, if_neg hk] at h
      exact List.mem_cons_of_mem _ (ih h)

theorem val_of_mem_dset {d : Doc} {k : String} {v : Val} {kv : String × Val}
    (h : kv ∈ dset d k v) (hkey : kv.1 = k) : kv.2 = v := by
  unfold dset at h
  by_cases ha : d.any (fun p => p.1 = k) = true
  · rw [if_pos ha] at h
    obtain ⟨p, _, hp⟩ := List.mem_map.mp h
    by_cases hpk : p.1 = k
    · rw [if_pos hpk] at hp; rw [← hp]
    · rw [if_neg hpk] at hp; exact absurd (hp ▸ hkey) hpk
  · rw [if_neg ha] at h
    rcases List.mem_append.mp h with hin | hin
    · have : ¬(kv.1 = k) := by
        intro hc
        apply ha
        exact List.any_eq_true.mpr ⟨kv, hin, by simpa using hc⟩
      exact absurd hkey this
    · simp only [List.mem_singleton] at hin
      rw [hin]

theorem mem_dset_of_ne {d : Doc} {k0 : String} {v0 : Val} {kv : String × Val}
    (h : kv ∈ d) (hne : kv.1 ≠ k0) : kv ∈ dset d k0 v0 := by
  unfold dset
  by_cases ha : d.any (fun p => p.1 = k0) = true
  · rw [if_pos ha]
    refine List.mem_map.mpr ⟨kv, h, ?_⟩
    rw [if_neg hne]
  · rw [if_neg ha]
    exact List.mem_append_left _ h

theorem exists_key_dset (d : Doc) (k : String) (v : Val) :
    ∃ kv ∈ dset d k v, kv.1 = k :=
  ⟨(k, v), dget_some_mem (dget_dset_self d k v), rfl⟩

theorem dget_foldl_dset_pin (K : String) (W : Val) :
    ∀ (l : Doc) (acc : Doc),
    (∀ kv ∈ l, kv.1 = K → kv.2 = W) →
    (dget acc K = some W ∨ ∃ kv ∈ l, kv.1 = K) →
    dget (l.foldl (fun acc p => dset acc p.1 p.2) acc) K = some W := by
  intro l
  induction l with
  | nil =>
    intro acc _ hstart
    rcases hstart with h | ⟨kv, hmem, _⟩
    · simpa using h
    · simp at hmem
  | cons p rest ih =>
    intro acc hval hstart
    simp only [List.foldl_cons]
    by_cases hpk : p.1 = K
    · have hw : p.2 = W := hval p (List.mem_cons_self _ _) hpk
      apply ih
      · exact fun kv hm hk => hval kv (List.mem_cons_of_mem _ hm) hk
      · left; rw [← hpk, ← hw]; exact dget_dset_self acc p.1 p.2
    · apply ih
      · exact fun kv hm hk => hval kv (List.mem_cons_of_mem _ hm) hk
      · rcases hstart with h | ⟨kv, hmem, hk⟩
        · left
          rw [dget_dset_ne acc p.1 K p.2 (fun hc => hpk hc.symm)]
          exact h
        · rcases List.mem_cons.mp hmem with rfl | hm
          · exact absurd hk hpk
          · right; exact ⟨kv, hm, hk⟩

theorem dget_dictOf_pin {K : String} {W : Val} {l : Doc}
    (hval : ∀ kv ∈ l, kv.1 = K → kv.2 = W)
    (hex : ∃ kv ∈ l, kv.1 = K) :
    dget (dictOf l) K = some W :=
  dget_foldl_dset_pin K W l [] hval (Or.inr hex)

/-! ## Transport through the pointwise document transformations -/

theorem convertIsoFields_eq_map (d : Doc) :
    convertIsoFields d = d.map (fun p => (p.1, convertIso p.2)) := by
  induction d with
  | nil => rfl
  | cons p rest ih => obtain ⟨k, v⟩ := p; simp [convertIsoFields, ih]

theorem injectCIFields_eq_map (d : Doc) :
    injectCIFields d = d.map (fun p =>
      if pyStartsWith p.1 "$" && isContainer p.2 then p else (p.1, injectCI p.2)) := by
  induction d with
  | nil => rfl
  | cons p rest ih => obtain ⟨k, v⟩ := p; simp [injectCIFields, ih]

theorem convertIso_oid (t : String) : convertIso (.oid t) = .oid t := rfl

theorem injectCI_oid (t : String) : injectCI (.oid t) = .oid t := rfl

theorem mem_convertIsoFields {d : Doc} {kv : String × Val}
    (h : kv ∈ convertIsoFields d) :
    ∃ p ∈ d, kv.1 = p.1 ∧ kv.2 = convertIso p.2 := by
  rw [convertIsoFields_eq_map] at h
  obtain ⟨p, hp, hmap⟩ := List.mem_map.mp h
  exact ⟨p, hp, by rw [← hmap], by rw [← hmap]⟩

theorem mem_injectCIFields {d : Doc} {kv : String × Val}
    (h : kv ∈ injectCIFields d) :
    ∃ p ∈ d, kv.1 = p.1 ∧ (kv.2 = p.2 ∨ kv.2 = injectCI p.2) := by
  rw [injectCIFields_eq_map] at h
  obtain ⟨p, hp, hmap⟩ := List.mem_map.mp h
  by_cases hc : pyStartsWith p.1 "$" && isContainer p.2
  · rw [if_pos hc] at hmap
    exact ⟨p, hp, by rw [← hmap], Or.inl (by rw [← hmap])⟩
  · rw [if_neg hc] at hmap
    exact ⟨p, hp, by rw [← hmap], Or.inr (by rw [← hmap])⟩

theorem dkeys_convertIsoFields (d : Doc) :
    dkeys (convertIsoFields d) = dkeys d := by
  rw [convertIsoFields_eq_map]; simp [dkeys]

theorem dkeys_injectCIFields (d : Doc) :
    dkeys (injectCIFields d) = dkeys d := by
  induction d with
  | nil => rfl
  | cons p rest ih =>
    obtain ⟨k, v⟩ := p
    by_cases hc : (pyStartsWith k "$" && isContainer v) = true
    · simp only [injectCIFields, if_pos hc, dkeys, List.map_cons]
      exact congrArg (List.cons k) ih
    · simp only [injectCIFields, if_neg hc, dkeys, List.map_cons]
      exact congrArg (List.cons k) ih

theorem mem_key_convertIsoFields {d : Doc} {k : String} {v : Val}
    (h : (k, v) ∈ d) : ∃ w, (k, w) ∈ convertIsoFields d := by
  rw [convertIsoFields_eq_map]
  exact ⟨convertIso v, List.mem_map.mpr ⟨(k, v), h, rfl⟩⟩

theorem mem_key_injectCIFields {d : Doc} {k : String} {v : Val}
    (h : (k, v) ∈ d) : ∃ w, (k, w) ∈ injectCIFields d := by
  rw [injectCIFields_eq_map]
  by_cases hc : pyStartsWith k "$" && isContainer v
  · exact ⟨v, List.mem_map.mpr ⟨(k, v), h, by simp [hc]⟩⟩
  · exact ⟨injectCI v, List.mem_map.mpr ⟨(k, v), h, by simp [hc]⟩⟩

theorem mem_injectCIFields_oid {d : Doc} {k : String} {t : String}
    (h : (k, Val.oid t) ∈ d) : (k, Val.oid t) ∈ injectCIFields d := by
  rw [injectCIFields_eq_map]
  by_cases hc : pyStartsWith k "$" && isContainer (Val.oid t)
  · exact List.mem_map.mpr ⟨(k, .oid t), h, by simp [hc]⟩
  · exact List.mem_map.mpr ⟨(k, .oid t), h, by simp [hc, injectCI_oid]⟩

theorem mem_dupdate_fresh {b e : Doc} {k : String} {v : Val}
    (hb : (k, v) ∈ b) (hfresh : ∀ p ∈ e, p.1 ≠ k) :
    (k, v) ∈ dupdate b e := by
  unfold dupdate
  induction e generalizing b with
  | nil => simpa using hb
  | cons p rest ih =>
    simp only [List.foldl_cons]
    exact ih
      (mem_dset_of_ne hb (fun hc => hfresh p (List.mem_cons_self _ _) (hc ▸ rfl)))
      (fun q hq => hfresh q (List.mem_cons_of_mem _ hq))

theorem mem_unwrapCIFields_oid {d g : Doc} {k t : String}
    (hmem : (k, Val.oid t) ∈ d) (hok : unwrapCIFields d = .ok g) :
    (k, Val.oid t) ∈ g := by
  induction d generalizing g with
  | nil => simp at hmem
  | cons p rest ih =>
    obtain ⟨k0, v0⟩ := p
    simp only [unwrapCIFields] at hok
    cases hv : unwrapCI v0 with
    | error e => rw [hv] at hok; simp at hok
    | ok w =>
      rw [hv] at hok
      cases hr : unwrapCIFields rest with
      | error e => rw [hr] at hok; simp at hok
      | ok g' =>
        rw [hr] at hok
        simp only [Except.ok.injEq] at hok
        subst hok
        rcases List.mem_cons.mp hmem with heq | hm
        · have hk : k0 = k := congrArg Prod.fst heq.symm
          have hval : v0 = Val.oid t := congrArg Prod.snd heq.symm
          subst hk; subst hval
          have hw : w = Val.oid t := by
            have := hv
            simp only [unwrapCI, Except.ok.injEq] at this
            exact this.symm
          rw [hw]
          exact List.mem_cons_self _ _
        · exact List.mem_cons_of_mem _ (ih hm hr)

theorem company_eq_of_matches {d f : Doc} {t : String}
    (hmem : ("company", Val.oid t) ∈ f)
    (hm : mongoMatches d f = true) :
    dget d "company" = some (.oid t) := by
  have hfield := (List.all_eq_true.mp hm) _ hmem
  simp only [matchesField, isOpDoc] at hfield
  cases hv : dget d "company" with
  | none => rw [hv] at hfield; simp at hfield
  | some w =>
    rw [hv] at hfield
    simp only [if_neg] at hfield
    have : valBeq w (.oid t) = true := by simpa using hfield
    rw [valBeq_oid w t this]

/-- A valid tenant ObjectId used in concrete instantiations. -/
def tid24 : String := "0123456789abcdef01234567"

/-! ## Claim C3 -/

theorem anchoredBody_escape (cs : List Char) :
    anchoredBody (String.mk (pyReEscape cs)) = none := by
  cases cs with
  | nil => rfl
  | cons c rest =>
    show anchoredBody (String.mk (escChar c ++ pyReEscape rest)) = none
    unfold escChar
    by_cases hs : isPySpecial c = true
    · rw [if_pos hs]
      simp [anchoredBody]
    · rw [if_neg hs]
      have hc : (c == '^') = false := by
        apply Bool.eq_false_iff.mpr
        intro hq
        have hceq : c = '^' := by simpa using hq
        rw [hceq] at hs
        exact absurd (by decide : isPySpecial '^' = true) hs
      simp [anchoredBody, hc]

/-- C3, counterexample: the find tool's un-wrapping is **not** the
inverse of the tool base's injection — the injected pattern is
un-anchored, so `_unwrap_ci_regex` leaves the wrapper in place: at
`x = "abc"`, `unwrap(inject(x)) ≠ x`. -/
theorem C3_counterexample :
    unwrapCI (injectCI (.str "abc")) ≠ .ok (.str "abc") := by
  intro h
  rw [show unwrapCI (injectCI (.str "abc")) =
      .ok (.doc [("$regex", .str "abc"), ("$options", .str "i")]) from rfl] at h
  exact absurd (Except.ok.inj h) (by simp)

theorem unwrapCI_regex_wrapper (e : String) (h : anchoredBody e = none) :
    unwrapCI (.doc [("$regex", .str e), ("$options", .str "i")]) =
      .ok (.doc [("$regex", .str e), ("$options", .str "i")]) := by
  rw [unwrapCI]
  simp [regexOptionsKeysOnly, dkeys, optionsIsI, dget, h, unwrapCIFields, unwrapCI]

/-- C3, amended: `_unwrap_ci_regex` un-wraps only anchored patterns
`^…$`, while `_inject_case_insensitive` produces the un-anchored
`re.escape(x)` (whose first character is never `^`), so for every
string `x` the composition returns the injected wrapper unchanged:
`unwrap(inject(x)) = inject(x)`, not `x`. -/
theorem C3_unwrap_inject_amended (s : String) :
    unwrapCI (injectCI (.str s)) = .ok (injectCI (.str s)) := by
  show unwrapCI (ciRegexWrap s) = .ok (ciRegexWrap s)
  unfold ciRegexWrap
  exact unwrapCI_regex_wrapper _ (anchoredBody_escape s.toList)

/-! ## Claim C4 -/

/-- C4, counterexample: the claim's own example `{"status": {"$ne":
"Open"}}` is **not** left unchanged — a bare string that is directly
the value of a `$`-key is rewritten to the regex wrapper, because the
code skips rewriting only when the `$`-keyed value is a dict or list. -/
theorem C4_counterexample :
    injectCI (.doc [("status", .doc [("$ne", .str "Open")])]) =
      .doc [("status", .doc [("$ne", ciRegexWrap "Open")])] ∧
    Val.doc [("status", .doc [("$ne", ciRegexWrap "Open")])] ≠
      .doc [("status", .doc [("$ne", .str "Open")])] := by
  refine ⟨rfl, ?_⟩
  simp [ciRegexWrap]

/-- C4, amended: the injection rewrites every bare string value to the
case-insensitive regex wrapper — including strings directly under a
`$`-key — and leaves unchanged (without recursing) only dict- or
list-valued entries of `$`-keys; non-string scalars are unchanged
everywhere. -/
theorem C4_inject_amended :
    (∀ (k : String) (v : Val) (rest : Doc),
      pyStartsWith k "$" = true → isContainer v = true →
      injectCIFields ((k, v) :: rest) = (k, v) :: injectCIFields rest) ∧
    (∀ (k s : String) (rest : Doc),
      injectCIFields ((k, .str s) :: rest) =
        (k, ciRegexWrap s) :: injectCIFields rest) ∧
    (∀ n : Int, injectCI (.int n) = .int n) ∧
    (∀ b : Bool, injectCI (.bool b) = .bool b) ∧
    (∀ t : String, injectCI (.oid t) = .oid t) ∧
    injectCI .null = .null := by
  refine ⟨?_, ?_, fun _ => rfl, fun _ => rfl, fun _ => rfl, rfl⟩
  · intro k v rest hk hv
    simp [injectCIFields, hk, hv]
  · intro k s rest
    simp [injectCIFields, isContainer, injectCI]

theorem C4_witness :
    (pyStartsWith "$in" "$" = true ∧ isContainer (.arr [.str "a"]) = true ∧
      injectCIFields [("$in", .arr [.str "a"])] =
        ("$in", Val.arr [.str "a"]) :: injectCIFields []) ∧
    injectCIFields [("$eq", .str "converted")] =
      ("$eq", ciRegexWrap "converted") :: injectCIFields [] :=
  ⟨⟨by decide, by decide,
    C4_inject_amended.1 "$in" (.arr [.str "a"]) [] (by decide) (by decide)⟩,
   C4_inject_amended.2.1 "$eq" "converted" []⟩

/-! ## Claim C5 -/

/-- C5: the allow-list is checked before any database I/O, but the
raised message never contains the allowed collection names — the gate
reads `lc_tool.run({}).get("collections", [])` while `list_collections`
keys its result as `"result"`, so the whitelist is always empty and the
generic "No collections are currently allowed" message is raised
instead.  Evaluated at `allowed_collections = ["companies"]`,
`collection = "leads"`: the message does not mention `companies`. -/
theorem C5_allowlist_error_message :
    allowListGate (some ["companies"]) (some "leads") =
      .error ⟨400, "No collections are currently allowed. " ++
        "Check your `allowed_collections` configuration."⟩ ∧
    listInfixOf "companies".toList
      ("No collections are currently allowed. " ++
        "Check your `allowed_collections` configuration.").toList = false :=
  ⟨rfl, by decide⟩

/-! ## Claim C6 -/

/-- C6, counterexample: a chat request whose `company_id` is not a valid
ObjectId is surfaced as HTTP **500** ("Internal server error"), not
400 — the session setter's `ValueError` is swallowed by `call_tool`'s
blanket `except`. -/
theorem C6_counterexample :
    call_tool_status "not-a-valid-objectid" (.ok []) =
      .error ⟨500, "Internal server error"⟩ ∧ (500 : Nat) ≠ 400 :=
  ⟨rfl, by decide⟩

/-- C6, amended: tool-level validation errors (bad arguments, disallowed
collections — every `ToolException`) reach the HTTP caller as 400 with
the error text verbatim; but an invalid tenant ID on a chat request is
caught in `call_tool` and surfaced as 500 "Internal server error". -/
theorem C6_error_status_amended (cid m : String) (rpc : RpcOutcome) :
    (isValidObjectId cid = true →
      call_tool_status cid (.toolErr m) = .error ⟨400, m⟩) ∧
    (isValidObjectId cid = false →
      call_tool_status cid rpc = .error ⟨500, "Internal server error"⟩) := by
  constructor
  · intro h; simp [call_tool_status, h]
  · intro h; simp [call_tool_status, h]

theorem C6_witness :
    call_tool_status tid24 (.toolErr "Invalid arguments: bad filter") =
      .error ⟨400, "Invalid arguments: bad filter"⟩ ∧
    call_tool_status "nope" (.ok []) =
      .error ⟨500, "Internal server error"⟩ :=
  ⟨(C6_error_status_amended tid24 "Invalid arguments: bad filter" (.ok [])).1
      (by decide),
   (C6_error_status_amended "nope" "" (.ok [])).2 (by decide)⟩

/-! ## Claim C8 -/

theorem dkeys_redactFields (d : Doc) : dkeys (redactFields d) = dkeys d := by
  induction d with
  | nil => rfl
  | cons p rest ih =>
    obtain ⟨k, v⟩ := p
    simp only [redactFields, dkeys, List.map_cons]
    exact congrArg (List.cons k) ih

/-- C8, counterexample: redaction never looks at dictionary keys — it
only rewrites textual `"key": "value"` occurrences inside *string
values* — so the argument dict `{"password": "hunter2"}` passes
through entirely unredacted, contradicting the claim that the value of
a sensitive key is replaced wherever the key appears in the nested
structure. -/
theorem C8_counterexample :
    redact_dict [("password", .str "hunter2")] =
      [("password", .str "hunter2")] ∧
    Val.str "hunter2" ≠ .str "<REDACTED>" :=
  ⟨rfl, by simp⟩

/-- C8, amended: redaction preserves every dictionary key unchanged and
applies only a regex substitution inside string values, replacing
textual `"k": "v"` occurrences for the eight keys password, pwd,
secret, apiKey, accessToken, authorization, clientSecret, privateKey;
`certificate` and `passphrase` are not in the list and are left
unredacted even in that textual form. -/
theorem C8_redaction_amended :
    (∀ d : Doc, dkeys (redact_dict d) = dkeys d) ∧
    pyRedactSub "\"password\": \"hunter2\"" = "\"password\": \"<REDACTED>\"" ∧
    pyRedactSub "\"clientSecret\": \"abc\"" = "\"clientSecret\": \"<REDACTED>\"" ∧
    pyRedactSub "\"certificate\": \"abc\"" = "\"certificate\": \"abc\"" ∧
    pyRedactSub "\"passphrase\": \"abc\"" = "\"passphrase\": \"abc\"" :=
  ⟨fun d => dkeys_redactFields d, rfl, rfl, rfl, rfl⟩

/-! ## Claim C10 -/

theorem chatRun_all_empty (m : Nat) :
    chatRun (List.replicate (3 + m) (.toolCall true)) = ⟨true, 0, true⟩ := by
  induction m with
  | zero => rfl
  | succ m ih =>
    rw [show 3 + (m + 1) = (3 + m) + 1 from rfl, List.replicate_succ',
        chatRun, List.foldl_append]
    rw [chatRun] at ih
    rw [ih]
    rfl

/-- C10: a count result of `{"result": 0}` is classified as empty, and a
user turn whose tool calls all return zero counts burns the 2-retry
budget and appends the canned no-data assistant message (`canned`)
rather than reporting the zero count: after any `n ≥ 3` such calls the
loop state is `found = true, retries = 0, canned = true`. -/
theorem C10_zero_count_is_empty_retry :
    result_is_empty "count" [("result", .int 0)] = true ∧
    ∀ n : Nat, 3 ≤ n →
      chatRun (List.replicate n
        (.toolCall (result_is_empty "count" [("result", .int 0)]))) =
        ⟨true, 0, true⟩ := by
  refine ⟨rfl, ?_⟩
  intro n hn
  obtain ⟨m, rfl⟩ := Nat.exists_eq_add_of_le hn
  exact chatRun_all_empty m

theorem C10_witness :
    (3 : Nat) ≤ 3 ∧
    chatRun (List.replicate 3
      (.toolCall (result_is_empty "count" [("result", .int 0)]))) =
      ⟨true, 0, true⟩ :=
  ⟨by decide, C10_zero_count_is_empty_retry.2 3 (by decide)⟩

/-! ## Claim C2 -/

/-- C2: on a tenant-scoped collection (`leads`), an aggregate call that
supplies only `groupBy` never reaches the `$facet` mode —
`ToolBase.run` pre-inserts the tenant `$match` into the empty pipeline
argument, so `execute` takes the custom-pipeline branch and ignores
`groupBy` entirely; the executed pipeline contains no `$facet` stage.
On a non-tenant collection (`plans`) the very same call does produce
the `$facet` stage, which is what the claim (and the spec's own
aggregate-group test scenario) expects. -/
theorem C2_groupBy_facet_unreachable :
    (aggExecutedPipeline ⟨["plans"], none, []⟩ tid24
        { collection := "leads", groupBy := some ["sourceType"] }).map
      pipelineHasFacet = .ok false ∧
    (aggExecutedPipeline ⟨["plans"], none, []⟩ tid24
        { collection := "plans", groupBy := some ["sourceType"] }).map
      pipelineHasFacet = .ok true :=
  ⟨rfl, rfl⟩

/-! ## Claim C1 -/

theorem make_company_filter_ok {coll tid : String} {extra : Doc}
    (htid : isValidObjectId tid = true) (hcoll : coll ≠ "companies") :
    make_company_filter coll tid (some extra) =
      .ok (if extra.isEmpty then [("company", Val.oid tid)]
           else dupdate [("company", Val.oid tid)] extra) := by
  unfold make_company_filter
  rw [htid]
  have hb : (coll == "companies") = false := beq_eq_false_iff_ne.mpr hcoll
  simp [hb]

/-- C1, counterexample: a caller filter that itself contains a
`company` key *overrides* the tenant constraint (the merge is
`base.update(extra)` with caller precedence).  With
`extra = {company: 7}` the effective count filter on `leads` binds
`company` to `7`; the document `{company: 7}` matches it although its
`company` is not the tenant id. -/
theorem C1_counterexample :
    scopedFilter ["plans"] "leads" tid24 (some [("company", .int 7)]) =
      .ok [("company", .int 7)] ∧
    mongoMatches [("company", .int 7)] [("company", .int 7)] = true ∧
    dget [("company", Val.int 7)] "company" ≠ some (.oid tid24) := by
  refine ⟨rfl, rfl, ?_⟩
  simp [dget]

/-- C1, amended: for a tenant-scoped collection and a caller filter
with **no** `company` key, the effective filter of `count` binds
`company` to the tenant's ObjectId, and so does the further-unwrapped
filter of `find`; hence every document matching either filter has
`d.company == tenantId`.  (A caller filter carrying a `company` key
replaces the tenant constraint instead — see the counterexample.) -/
theorem C1_tenant_scope_amended
    (nonTenant : List String) (coll tid : String) (extra d f : Doc)
    (hnt : coll ∉ nonTenant) (hcoll : coll ≠ "companies")
    (htid : isValidObjectId tid = true)
    (hfresh : ∀ p ∈ extra, p.1 ≠ "company")
    (hf : scopedFilter nonTenant coll tid (some extra) = .ok f) :
    ("company", Val.oid tid) ∈ f ∧
    (mongoMatches d f = true → dget d "company" = some (.oid tid)) ∧
    (∀ g, unwrapCIFields f = .ok g →
      mongoMatches d g = true → dget d "company" = some (.oid tid)) := by
  unfold scopedFilter at hf
  rw [if_neg hnt, make_company_filter_ok htid hcoll] at hf
  simp only [Option.getD_some, Except.ok.injEq] at hf
  subst hf
  have hmem : ("company", Val.oid tid) ∈
      (if extra.isEmpty then [("company", Val.oid tid)]
       else dupdate [("company", Val.oid tid)] extra) := by
    by_cases he : extra.isEmpty
    · rw [if_pos he]; exact List.mem_singleton.mpr rfl
    · rw [if_neg he]; exact mem_dupdate_fresh (List.mem_singleton.mpr rfl) hfresh
  have hmem' := mem_injectCIFields_oid hmem
  exact ⟨hmem', fun hm => company_eq_of_matches hmem' hm,
    fun g hg hm => company_eq_of_matches (mem_unwrapCIFields_oid hmem' hg) hm⟩

/-- The effective `count` filter for the C1 witness instance. -/
def C1f : Doc := [("company", .oid tid24), ("city", ciRegexWrap "Pune")]

theorem C1_witness :
    ("leads" ∉ ["plans"]) ∧ "leads" ≠ "companies" ∧
    isValidObjectId tid24 = true ∧
    (∀ p ∈ [(("city" : String), Val.str "Pune")], p.1 ≠ "company") ∧
    scopedFilter ["plans"] "leads" tid24 (some [("city", .str "Pune")]) =
      .ok C1f ∧
    ("company", Val.oid tid24) ∈ C1f :=
  ⟨by decide, by decide, by decide, by decide, rfl,
   (C1_tenant_scope_amended ["plans"] "leads" tid24 [("city", .str "Pune")]
      [] C1f (by decide) (by decide) (by decide) (by decide) rfl).1⟩

/-! ## Claim C7 -/

/-- C7, counterexample: for a collection in the configured non-tenant
set (`plans`), stage 0 of the executed aggregate pipeline still carries
the tenant predicate — `AggregateTool.execute` re-adds
`base_filter["company"] = tenant` unconditionally — contradicting the
claim that no tenant predicate is added for non-tenant collections. -/
theorem C7_counterexample :
    (aggExecutedPipeline ⟨["plans"], none, []⟩ tid24
        { collection := "plans", groupBy := some ["sourceType"] }).map
      (fun pl => match pl.headD .null with
        | .doc [("$match", .doc m)] => dget m "company"
        | _ => none) = .ok (some (.oid tid24)) :=
  rfl

theorem cleanKeysFields_eq_map (d : Doc) :
    cleanKeysFields d = d.map (fun p => (pyStrip p.1, cleanKeys p.2)) := by
  induction d with
  | nil => rfl
  | cons p rest ih => obtain ⟨k, v⟩ := p; simp [cleanKeysFields, ih]

theorem mem_dset_key_cases {d : Doc} {k : String} {v : Val}
    {kv : String × Val} (h : kv ∈ dset d k v) :
    kv.1 = k ∨ kv.1 ∈ dkeys d := by
  unfold dset at h
  by_cases ha : d.any (fun p => p.1 = k) = true
  · rw [if_pos ha] at h
    obtain ⟨p, hp, hmap⟩ := List.mem_map.mp h
    right
    have : kv.1 = p.1 := by
      by_cases hpk : p.1 = k
      · rw [if_pos hpk] at hmap; rw [← hmap]
      · rw [if_neg hpk] at hmap; rw [← hmap]
    rw [this]
    exact List.mem_map.mpr ⟨p, hp, rfl⟩
  · rw [if_neg ha] at h
    rcases List.mem_append.mp h with hin | hin
    · exact Or.inr (List.mem_map.mpr ⟨kv, hin, rfl⟩)
    · simp only [List.mem_singleton] at hin
      exact Or.inl (by rw [hin])

theorem mem_dkeys_dupdate {b e : Doc} {k : String}
    (h : k ∈ dkeys (dupdate b e)) : k ∈ dkeys b ∨ k ∈ dkeys e := by
  unfold dupdate at h
  induction e generalizing b with
  | nil => exact Or.inl (by simpa using h)
  | cons p rest ih =>
    simp only [List.foldl_cons] at h
    rcases ih h with hin | hin
    · obtain ⟨q, hq, hqk⟩ := List.mem_map.mp hin
      rcases mem_dset_key_cases hq with h1 | h1
      · exact Or.inr (by simp [dkeys, hqk ▸ h1])
      · exact Or.inl (by rw [← hqk]; exact h1)
    · exact Or.inr (List.mem_cons_of_mem _ hin)

theorem make_company_filter_keys {coll tid : String} {extra mcf : Doc}
    (h : make_company_filter coll tid (some extra) = .ok mcf) :
    ∀ k ∈ dkeys mcf, k ∈ dkeys extra ∨ k = "company" ∨ k = "_id" := by
  unfold make_company_filter at h
  by_cases hv : isValidObjectId tid = true
  · rw [hv] at h
    simp only [Bool.not_true, Bool.false_eq_true, if_false, Except.ok.injEq] at h
    by_cases hc : (coll == "companies") = true
    · rw [if_pos hc] at h
      by_cases he : extra.isEmpty
      · rw [if_pos he] at h
        subst h
        intro k hk
        simp only [dkeys, List.map_cons, List.map_nil, List.mem_singleton] at hk
        exact Or.inr (Or.inr hk)
      · rw [if_neg he] at h
        subst h
        intro k hk
        rcases mem_dkeys_dupdate hk with h1 | h1
        · simp only [dkeys, List.map_cons, List.map_nil, List.mem_singleton] at h1
          exact Or.inr (Or.inr h1)
        · exact Or.inl h1
    · rw [if_neg hc] at h
      by_cases he : extra.isEmpty
      · rw [if_pos he] at h
        subst h
        intro k hk
        simp only [dkeys, List.map_cons, List.map_nil, List.mem_singleton] at hk
        exact Or.inr (Or.inl hk)
      · rw [if_neg he] at h
        subst h
        intro k hk
        rcases mem_dkeys_dupdate hk with h1 | h1
        · simp only [dkeys, List.map_cons, List.map_nil, List.mem_singleton] at h1
          exact Or.inr (Or.inl h1)
        · exact Or.inl h1
  · rw [Bool.eq_false_iff.mpr hv] at h
    simp at h

theorem scopedFilter_keys {nonTenant : List String} {coll tid : String}
    {filterArg : Option Doc} {filt : Doc}
    (hf : scopedFilter nonTenant coll tid filterArg = .ok filt) :
    ∀ k ∈ dkeys filt,
      k ∈ dkeys (filterArg.getD []) ∨ k = "company" ∨ k = "_id" := by
  unfold scopedFilter at hf
  by_cases hnt : coll ∈ nonTenant
  · rw [if_pos hnt] at hf
    simp only [Except.ok.injEq] at hf
    by_cases he : (filterArg.getD []).isEmpty
    · rw [if_pos he] at hf
      subst hf
      intro k hk
      simp [dkeys] at hk
    · rw [if_neg he] at hf
      subst hf
      intro k hk
      rw [dkeys_injectCIFields] at hk
      exact Or.inl hk
  · rw [if_neg hnt] at hf
    cases hmk : make_company_filter coll tid (some (filterArg.getD [])) with
    | error e => rw [hmk] at hf; simp at hf
    | ok mcf =>
      rw [hmk] at hf
      simp only [Except.ok.injEq] at hf
      subst hf
      intro k hk
      rw [dkeys_injectCIFields] at hk
      exact make_company_filter_keys hmk k hk

/-- C7, amended: stage 0 of every executed aggregate pipeline is a
`$match` whose predicate binds `company` to the tenant's ObjectId —
**including** for collections in the configured non-tenant set, because
`AggregateTool.execute` re-adds `base_filter["company"] = tenant`
unconditionally.  (The caller-filter hypothesis rules out a key that is
distinct from `company` but strips to it, which the final
key-sanitization pass would let shadow the tenant binding.) -/
theorem C7_stage0_match_amended
    (cfg : AggConfig) (tid : String) (a : AggArgs) (pl : List Val)
    (hkeys : ∀ k ∈ dkeys (a.filter.getD []), pyStrip k = "company" → k = "company")
    (hok : aggExecutedPipeline cfg tid a = .ok pl) :
    ∃ m, pl.head? = some (.doc [("$match", .doc m)]) ∧
      dget m "company" = some (.oid tid) := by
  unfold aggExecutedPipeline at hok
  cases hvld : aggArgsValid a with
  | false => rw [hvld] at hok; simp at hok
  | true =>
  rw [hvld] at hok
  simp only [Bool.not_true, Bool.false_eq_true, if_false] at hok
  cases hf : scopedFilter cfg.nonTenant a.collection tid a.filter with
  | error e => rw [hf] at hok; simp at hok
  | ok filt =>
  rw [hf] at hok
  cases hp : scopedPipeline cfg.nonTenant a.collection tid a.pipeline with
  | error e => rw [hp] at hok; simp at hok
  | ok runPl =>
  rw [hp] at hok
  cases hg : allowListGate cfg.allowed (some a.collection) with
  | error e => rw [hg] at hok; simp at hok
  | ok u =>
  rw [hg] at hok
  dsimp only at hok
  cases hm : aggModeStages cfg a runPl with
  | error e => rw [hm] at hok; simp at hok
  | ok tailStages =>
  rw [hm] at hok
  simp only [Except.ok.injEq] at hok
  subst hok
  -- stage 0 after sanitization
  set inner := injectCIFields (convertIsoFields (dset filt "company" (.oid tid)))
    with hinner
  refine ⟨dictOf (cleanKeysFields inner), ?_, ?_⟩
  · rfl
  · -- the company binding survives sanitization
    apply dget_dictOf_pin
    · intro kv hkv hk
      rw [cleanKeysFields_eq_map] at hkv
      obtain ⟨p, hp, hpe⟩ := List.mem_map.mp hkv
      have hk1 : kv.1 = pyStrip p.1 := by rw [← hpe]
      have hk2 : kv.2 = cleanKeys p.2 := by rw [← hpe]
      rw [hinner] at hp
      obtain ⟨q, hq, hq1, hq2⟩ := mem_injectCIFields hp
      obtain ⟨r, hr, hr1, hr2⟩ := mem_convertIsoFields hq
      have hkey : pyStrip r.1 = "company" := by
        rw [← hr1, ← hq1, ← hk1]; exact hk
      have hrk : r.1 = "company" := by
        rcases mem_dset_key_cases hr with h1 | h1
        · exact h1
        · rcases scopedFilter_keys hf r.1 h1 with h2 | h2 | h2
          · exact hkeys r.1 h2 hkey
          · exact h2
          · rw [h2] at hkey
            exact absurd hkey (by decide)
      have hrv : r.2 = Val.oid tid :=
        val_of_mem_dset hr hrk
      have hqv : q.2 = Val.oid tid := by rw [hr2, hrv, convertIso_oid]
      have hpv : p.2 = Val.oid tid := by
        rcases hq2 with h2 | h2
        · rw [h2, hqv]
        · rw [h2, hqv, injectCI_oid]
      rw [hk2, hpv]
      rfl
    · have hb : dget (dset filt "company" (Val.oid tid)) "company" =
          some (.oid tid) := dget_dset_self _ _ _
      have hmem := dget_some_mem hb
      obtain ⟨w1, hw1⟩ := mem_key_convertIsoFields hmem
      obtain ⟨w2, hw2⟩ := mem_key_injectCIFields hw1
      refine ⟨("company", cleanKeys w2), ?_, rfl⟩
      rw [cleanKeysFields_eq_map]
      exact List.mem_map.mpr ⟨("company", w2), hinner ▸ hw2,
        by show _ = (pyStrip "company", cleanKeys w2); rfl⟩

/-- The pipeline the C7 witness instance executes. -/
def C7pl : List Val :=
  [.doc [("$match", .doc [("company", .oid tid24)])],
   .doc [("$match", .doc [("company", .oid tid24)])],
   .doc [("$limit", .int 100)]]

/-! ## Claim C9 -/

theorem foldl_min_of_le {l : List Nat} {a : Nat} (h : ∀ x ∈ l, a ≤ x) :
    l.foldl min a = a := by
  induction l generalizing a with
  | nil => rfl
  | cons x t ih =>
    rw [List.foldl_cons, min_eq_left (h x (List.mem_cons_self _ _))]
    exact ih (fun y hy => h y (List.mem_cons_of_mem _ hy))

theorem min?_eq_head?_of_chain (l : List Nat)
    (h : List.Chain' (· < ·) l) : l.min? = l.head? := by
  cases l with
  | nil => rfl
  | cons a t =>
    have hp := List.chain'_iff_pairwise.mp h
    have hall : ∀ x ∈ t, a ≤ x :=
      fun x hx => le_of_lt ((List.pairwise_cons.mp hp).1 x hx)
    show some (t.foldl min a) = some a
    rw [foldl_min_of_le hall]

theorem popMinIdx_sorted {α : Type} (p : Nat × α) (t : List (Nat × α))
    (h : List.Chain' (· < ·) ((p :: t).map Prod.fst)) :
    popMinIdx (p :: t) = t := by
  unfold popMinIdx
  rw [min?_eq_head?_of_chain _ h]
  simp only [List.map_cons, List.head?_cons]
  exact List.eraseP_cons_of_pos (by simp)

/-- The invariant maintained by `Telemetry.record`: indices in the
buffer are strictly increasing (so the head is the oldest event and the
minimum index), all are below the next index, and the buffer never
exceeds the cap. -/
def telInv {α : Type} (cap : Nat) (s : TelBuf α) : Prop :=
  List.Chain' (· < ·) (s.buf.map Prod.fst) ∧
  (∀ k ∈ s.buf.map Prod.fst, k < s.nextIdx) ∧
  s.buf.length ≤ cap

theorem mem_of_mem_getLast? {α : Type} {l : List α} {x : α}
    (h : x ∈ l.getLast?) : x ∈ l := by
  obtain ⟨hne, hx⟩ := List.mem_getLast?_eq_getLast h
  rw [hx]
  exact List.getLast_mem hne

theorem telRecord_inv {α : Type} {cap : Nat} (hcap : 1 ≤ cap)
    {s : TelBuf α} (e : α) (h : telInv cap s) :
    telInv cap (telRecord cap s e) := by
  obtain ⟨hchain, hlt, hlen⟩ := h
  unfold telRecord
  by_cases hfull : cap ≤ s.buf.length
  · rw [if_pos hfull]
    cases hbuf : s.buf with
    | nil =>
      rw [hbuf] at hfull
      simp only [List.length_nil] at hfull
      omega
    | cons p t =>
      rw [hbuf] at hchain hlt hlen
      rw [popMinIdx_sorted p t hchain]
      dsimp only
      refine ⟨?_, ?_, ?_⟩
      · rw [List.map_append]
        apply List.Chain'.append
        · simpa using hchain.tail
        · simp
        · intro x hx y hy
          simp only [List.map_cons, List.map_nil, List.head?_cons,
            Option.mem_def, Option.some.injEq] at hy
          subst hy
          exact hlt x (List.mem_cons_of_mem _ (mem_of_mem_getLast? hx))
      · intro k hk
        rw [List.map_append] at hk
        rcases List.mem_append.mp hk with hin | hin
        · exact Nat.lt_succ_of_lt
            (hlt k (List.mem_cons_of_mem _ hin))
        · simp only [List.map_cons, List.map_nil, List.mem_singleton] at hin
          exact hin ▸ Nat.lt_succ_self s.nextIdx
      · simpa using hlen
  · rw [if_neg hfull]
    dsimp only
    refine ⟨?_, ?_, ?_⟩
    · rw [List.map_append]
      apply List.Chain'.append hchain (by simp)
      intro x hx y hy
      simp only [List.map_cons, List.map_nil, List.head?_cons,
        Option.mem_def, Option.some.injEq] at hy
      subst hy
      exact hlt x (mem_of_mem_getLast? hx)
    · intro k hk
      rw [List.map_append] at hk
      rcases List.mem_append.mp hk with hin | hin
      · exact Nat.lt_succ_of_lt (hlt k hin)
      · simp only [List.map_cons, List.map_nil, List.mem_singleton] at hin
        exact hin ▸ Nat.lt_succ_self s.nextIdx
    · simp only [List.length_append, List.length_cons, List.length_nil]
      omega

theorem telRun_inv {α : Type} (cap : Nat) (hcap : 1 ≤ cap)
    (evs : List α) : telInv cap (telRun cap evs) := by
  unfold telRun
  suffices h : ∀ s : TelBuf α, telInv cap s →
      telInv cap (evs.foldl (telRecord cap) s) from
    h ⟨[], 0⟩ ⟨by simp, by simp, by simp⟩
  induction evs with
  | nil => exact fun s hs => hs
  | cons e rest ih => exact fun s hs => ih _ (telRecord_inv hcap e hs)

/-- C9: for every sequence of `record` calls with a positive cap, the
buffer never exceeds the cap; the newly recorded event is always in the
buffer after its insertion (never the one dropped); and an insertion
into a full buffer drops exactly the head entry — whose index is the
minimum, i.e. the oldest event. -/
theorem C9_telemetry_buffer (cap : Nat) (evs : List Doc) (e : Doc)
    (hcap : 1 ≤ cap) :
    (telRun cap evs).buf.length ≤ cap ∧
    ((telRun cap evs).nextIdx, e) ∈ (telRecord cap (telRun cap evs) e).buf ∧
    ((telRun cap evs).buf.length = cap →
      (telRecord cap (telRun cap evs) e).buf =
        (telRun cap evs).buf.tail ++ [((telRun cap evs).nextIdx, e)] ∧
      ((telRun cap evs).buf.map Prod.fst).min? =
        ((telRun cap evs).buf.map Prod.fst).head?) := by
  obtain ⟨hchain, hlt, hlen⟩ := telRun_inv cap hcap evs (α := Doc)
  refine ⟨hlen, ?_, ?_⟩
  · unfold telRecord
    by_cases hfull : cap ≤ (telRun cap evs).buf.length
    · rw [if_pos hfull]
      exact List.mem_append_right _ (List.mem_singleton.mpr rfl)
    · rw [if_neg hfull]
      exact List.mem_append_right _ (List.mem_singleton.mpr rfl)
  · intro hfull
    constructor
    · unfold telRecord
      rw [if_pos (le_of_eq hfull.symm)]
      cases hbuf : (telRun cap evs).buf with
      | nil =>
        rw [hbuf] at hfull
        simp only [List.length_nil] at hfull
        omega
      | cons p t =>
        rw [hbuf] at hchain
        rw [popMinIdx_sorted p t hchain]
        rfl
    · exact min?_eq_head?_of_chain _ hchain

theorem C9_witness :
    (1 : Nat) ≤ 2 ∧
    ((telRun 2 [([] : Doc), [], []]).buf.length ≤ 2 ∧
     ((telRun 2 [([] : Doc), [], []]).nextIdx, ([] : Doc)) ∈
       (telRecord 2 (telRun 2 [([] : Doc), [], []]) []).buf ∧
     ((telRun 2 [([] : Doc), [], []]).buf.length = 2 →
       (telRecord 2 (telRun 2 [([] : Doc), [], []]) []).buf =
         (telRun 2 [([] : Doc), [], []]).buf.tail ++
           [((telRun 2 [([] : Doc), [], []]).nextIdx, ([] : Doc))]  ∧
       ((telRun 2 [([] : Doc), [], []]).buf.map Prod.fst).min? =
         ((telRun 2 [([] : Doc), [], []]).buf.map Prod.fst).head?)) :=
  ⟨by decide, C9_telemetry_buffer 2 [[], [], []] [] (by decide)⟩

theorem C7_witness :
    aggExecutedPipeline ⟨["plans"], none, []⟩ tid24
      { collection := "leads", groupBy := some ["x"] } = .ok C7pl ∧
    C7pl.head?.isSome = true := by
  refine ⟨rfl, ?_⟩
  obtain ⟨m, h1, _⟩ := C7_stage0_match_amended ⟨["plans"], none, []⟩ tid24
    { collection := "leads", groupBy := some ["x"] } C7pl
    (by decide) rfl
  rw [h1]; rfl

end Mcp
